import Mathlib

/-!
Verification development for the go-extras/errx error-composition library.

Go errors form a pointer-identified, possibly cyclic graph.  We model that
graph as a heap: a list of nodes, where a node refers to other nodes by their
index in the list.  Pointer identity of a Go error value is the index, so two
nodes with identical content at different indices model two distinct Go
allocations, and a node whose unwrap target is its own index models an error
whose `Unwrap()` returns itself.

Functions that the Go runtime executes by pointer chasing are embedded either
with an index-decreasing guard (message rendering, where the construction
order of `Wrap`/`Classify` forces the cause to be an older allocation) or with
explicit fuel (the `errors.Is` / `errors.As` protocols and the traversal
loops, which in Go can genuinely diverge on cyclic graphs; divergence is
represented by the fuelled function answering `none` for every fuel).
-/

namespace Errx

/-- GoVal models the dynamic type of a Go `any` argument as far as the
`Attrs` argument parser distinguishes them: an `Attr` struct, a `[]Attr`
slice, an `AttrList`, a `string`, and anything else (ints, bools, or an
arbitrary other value identified by a tag). -/
inductive GoVal where
  | str (s : String)
  | intV (n : Int)
  | boolV (b : Bool)
  | attrV (key : String) (value : GoVal)
  | attrSliceV (xs : List (String × GoVal))
  | attrListV (xs : List (String × GoVal))
  | otherV (tag : Nat)

/-- Attr is the key/value pair of src/attributed.go (`type Attr struct`);
the value field has Go type `any`, modelled by `GoVal`. -/
abbrev Attr := String × GoVal

mutual

/-- goValString models Go's `fmt.Sprintf("%+v", v)` for the values of
`GoVal`: strings print bare, ints in decimal, an `Attr` struct as
`{Key:k Value:v}`, and slices as the bracketed space-separated elements. -/
def goValString : GoVal → String
  | .str s => s
  | .intV n => toString n
  | .boolV b => cond b "true" "false"
  | .attrV k v => "\x7bKey:" ++ k ++ " Value:" ++ goValString v ++ "\x7d"
  | .attrSliceV xs => "[" ++ pairListString xs ++ "]"
  | .attrListV xs => "[" ++ pairListString xs ++ "]"
  | .otherV t => "other#" ++ toString t

/-- pairListString renders the elements of a `[]Attr` value for
`goValString`, space separated as `%+v` does. -/
def pairListString : List (String × GoVal) → String
  | [] => ""
  | [(k, v)] => "\x7bKey:" ++ k ++ " Value:" ++ goValString v ++ "\x7d"
  | (k, v) :: rest =>
      "\x7bKey:" ++ k ++ " Value:" ++ goValString v ++ "\x7d" ++ " " ++ pairListString rest

end

/-- attrString is `Attr.String` of src/attributed.go:
`fmt.Sprintf("%s=%+v", a.Key, a.Value)`. -/
def attrString (a : Attr) : String :=
  a.1 ++ "=" ++ goValString a.2

/-- attrListString is `AttrList.String` of src/attributed.go: the
`attrString` of each element, joined with a single space. -/
def attrListString (al : List Attr) : String :=
  String.intercalate " " (al.map attrString)

/-- parseLoop is the body of `parseAttrs` of src/attributed.go, lines
160-184: the indexed `for` loop over `attrs`, advancing `i` by one, or by
two when a string key consumes the following argument as its value. -/
def parseLoop (attrs : List GoVal) (i : Nat) : List Attr :=
  match h : attrs.get? i with
  | none => []
  | some (.attrV k v) => (k, v) :: parseLoop attrs (i + 1)
  | some (.attrSliceV xs) => xs ++ parseLoop attrs (i + 1)
  | some (.attrListV xs) => xs ++ parseLoop attrs (i + 1)
  | some (.str s) =>
      match attrs.get? (i + 1) with
      | some v => (s, v) :: parseLoop attrs (i + 2)
      | none => ("!BADKEY", .str s) :: parseLoop attrs (i + 1)
  | some (.intV n) => ("!BADKEY", .intV n) :: parseLoop attrs (i + 1)
  | some (.boolV b) => ("!BADKEY", .boolV b) :: parseLoop attrs (i + 1)
  | some (.otherV t) => ("!BADKEY", .otherV t) :: parseLoop attrs (i + 1)
termination_by attrs.length - i
decreasing_by
  all_goals
    have hi : i < attrs.length := List.get?_eq_some.mp h |>.1
    omega

/-- parseAttrs is `parseAttrs` of src/attributed.go: the early return for an
empty argument list followed by the indexed loop starting at 0. -/
def parseAttrs (attrs : List GoVal) : List Attr :=
  if attrs.isEmpty then [] else parseLoop attrs 0

/-- AttrsNode is `Attrs` of src/attributed.go: it builds an `*attributed`
error holding the parsed attribute list (the heap node construction is
`attributedN` below; this definition gives the node's payload). -/
def attrsParsed (args : List GoVal) : List Attr :=
  parseAttrs args

/-- ErrNode is one Go error allocation, as one of the concrete error shapes
of the library and of the Go standard library that the code distinguishes:

* `sentinelN text parents` — `*sentinel` of src/errx.go;
* `displayableN text parents` — `*displayable` (a sentinel wrapper) of the
  displayable source file;
* `attributedN attrs` — `*attributed` of src/attributed.go;
* `carrierN classifications cause` — `*carrier` of src/errx.go;
* `wrapN text cause` — the `fmt.Errorf("%s: %w", text, cause)` wrapper
  produced by `Wrap`;
* `multiN text causes` — an error whose `Unwrap() []error` returns the
  listed causes (Go 1.20 multi-error), with its own message text;
* `customN text unwraps` — any other error: `errors.New` when `unwraps` is
  `none`, or a custom error whose `Unwrap() error` returns the given node
  (possibly itself, which models a self-referential error). -/
inductive ErrNode where
  | sentinelN (text : String) (parents : List Nat)
  | displayableN (text : String) (parents : List Nat)
  | attributedN (attrs : List Attr)
  | carrierN (classifications : List Nat) (cause : Nat)
  | wrapN (text : String) (cause : Nat)
  | multiN (text : String) (causes : List Nat)
  | customN (text : String) (unwraps : Option Nat)

/-- Heap is the allocation store: node `i` is `h.get? i`. -/
abbrev Heap := List ErrNode

/-- errorMsg renders a node's `Error()` string:
sentinel/displayable return their text, `attributed.Error` returns
`(empty attribute list)` or the joined attribute list,
`carrier.Error` returns `c.cause.Error()` (src/errx.go line 245, the
classification text intentionally not shown), the `fmt.Errorf` wrapper
returns `text + ": " + cause.Error()`, and multi/custom errors return their
own stored text.  The `c < i` guards encode the construction invariant that
a carrier or wrapper is always allocated after its cause (Go cannot build a
carrier whose cause does not yet exist), which is what makes `Error()`
terminate; on a heap violating the invariant the guarded branch renders the
cause as the empty string. -/
def errorMsgGo (h : Heap) : Nat → Nat → String
  | 0, _ => ""
  | fuel + 1, i =>
    match h.get? i with
    | none => ""
    | some (.sentinelN t _) => t
    | some (.displayableN t _) => t
    | some (.attributedN attrs) =>
        if attrs.isEmpty then "(empty attribute list)" else attrListString attrs
    | some (.carrierN _ c) => if c < i then errorMsgGo h fuel c else ""
    | some (.wrapN t c) =>
        t ++ ": " ++ (if c < i then errorMsgGo h fuel c else "")
    | some (.multiN t _) => t
    | some (.customN t _) => t

/-- errorMsg evaluates `errorMsgGo` at its own index plus one, which is
always enough fuel because the guards force the chase strictly downward. -/
def errorMsg (h : Heap) (i : Nat) : String :=
  errorMsgGo h (i + 1) i

/-- errorMsgGo is fuel-stable above the rendered index. -/
lemma errorMsgGo_stable (h : Heap) :
    ∀ i fuel, i < fuel → errorMsgGo h fuel i = errorMsg h i := by
  intro i
  induction i using Nat.strong_induction_on with
  | _ i ih =>
    intro fuel hf
    obtain ⟨f, rfl⟩ : ∃ f, fuel = f + 1 := ⟨fuel - 1, by omega⟩
    rw [errorMsg, errorMsgGo, errorMsgGo]
    cases hg : h.get? i with
    | none => rfl
    | some n =>
      cases n with
      | carrierN cls c =>
        show (if c < i then errorMsgGo h f c else "") =
          (if c < i then errorMsgGo h i c else "")
        by_cases hc : c < i
        · rw [if_pos hc, if_pos hc, ih c hc f (by omega), ih c hc i hc]
        · rw [if_neg hc, if_neg hc]
      | wrapN t c =>
        show t ++ ": " ++ (if c < i then errorMsgGo h f c else "") =
          t ++ ": " ++ (if c < i then errorMsgGo h i c else "")
        by_cases hc : c < i
        · rw [if_pos hc, if_pos hc, ih c hc f (by omega), ih c hc i hc]
        · rw [if_neg hc, if_neg hc]
      | sentinelN t ps => rfl
      | displayableN t ps => rfl
      | attributedN attrs => rfl
      | multiN t cs => rfl
      | customN t u => rfl

/-- errorMsg unfolds one rendering step: sentinel/displayable return their
text, `attributed.Error` returns `(empty attribute list)` or the joined
attribute list, `carrier.Error` returns `c.cause.Error()` (src/errx.go
line 245, the classification text intentionally not shown), the
`fmt.Errorf` wrapper returns `text + ": " + cause.Error()`, and
multi/custom errors return their own stored text.  The `c < i` guards
encode the construction invariant that a carrier or wrapper is always
allocated after its cause (Go cannot build a carrier whose cause does not
yet exist), which is what makes `Error()` terminate; on a heap violating
the invariant the guarded branch renders the cause as the empty string. -/
lemma errorMsg_step (h : Heap) (i : Nat) :
    errorMsg h i =
      match h.get? i with
      | none => ""
      | some (.sentinelN t _) => t
      | some (.displayableN t _) => t
      | some (.attributedN attrs) =>
          if attrs.isEmpty then "(empty attribute list)" else attrListString attrs
      | some (.carrierN _ c) => if c < i then errorMsg h c else ""
      | some (.wrapN t c) => t ++ ": " ++ (if c < i then errorMsg h c else "")
      | some (.multiN t _) => t
      | some (.customN t _) => t := by
  rw [errorMsg, errorMsgGo]
  cases hg : h.get? i with
  | none => rfl
  | some n =>
    cases n with
    | carrierN cls c =>
      show (if c < i then errorMsgGo h i c else "") =
        (if c < i then errorMsg h c else "")
      by_cases hc : c < i
      · rw [if_pos hc, if_pos hc, errorMsgGo_stable h c i hc]
      · rw [if_neg hc, if_neg hc]
    | wrapN t c =>
      show t ++ ": " ++ (if c < i then errorMsgGo h i c else "") =
        t ++ ": " ++ (if c < i then errorMsg h c else "")
      by_cases hc : c < i
      · rw [if_pos hc, if_pos hc, errorMsgGo_stable h c i hc]
      · rw [if_neg hc, if_neg hc]
    | sentinelN t ps => rfl
    | displayableN t ps => rfl
    | attributedN attrs => rfl
    | multiN t cs => rfl
    | customN t u => rfl

/-- classify is `classify` of src/errx.go lines 231-236: a nil cause yields
nil and no allocation; otherwise a fresh `*carrier` holding the
classification list and the cause is allocated.  The result is the new heap
together with the returned error (the new carrier's index). -/
def classify (h : Heap) (cause : Option Nat) (classifications : List Nat) :
    Heap × Option Nat :=
  match cause with
  | none => (h, none)
  | some c => (h ++ [.carrierN classifications c], some h.length)

/-- wrap is `Wrap` of src/errx.go lines 205-213: nil cause yields nil; with
no classifications it allocates only the `fmt.Errorf("%s: %w", ...)` wrapper;
otherwise it wraps the carrier produced by `classify`. -/
def wrap (h : Heap) (text : String) (cause : Option Nat)
    (classifications : List Nat) : Heap × Option Nat :=
  match cause with
  | none => (h, none)
  | some c =>
    if classifications.isEmpty then
      (h ++ [.wrapN text c], some h.length)
    else
      match classify h (some c) classifications with
      | (h', some k) => (h' ++ [.wrapN text k], some h'.length)
      | (h', none) => (h', none)

/-- SubstrOf states that `p` occurs as a contiguous substring of `s`,
byte-for-byte (character list infix); it is decidable. -/
def SubstrOf (p s : String) : Prop :=
  List.IsInfix p.toList s.toList

instance (p s : String) : Decidable (SubstrOf p s) :=
  List.decidableInfix p.toList s.toList

/-- unwrapSingle is `errors.Unwrap`: it calls the node's `Unwrap() error`
method when it has one.  `sentinel.Unwrap` (src/errx.go lines 117-123)
returns nil without parents and the first parent otherwise; `displayable`
promotes that method; `carrier.Unwrap` returns the cause; the `fmt.Errorf`
wrapper unwraps to its cause; a custom error returns its stored target.
An attributed error has no `Unwrap`, and a multi-error only has
`Unwrap() []error`, so `errors.Unwrap` yields nil for both. -/
def unwrapSingle (h : Heap) (i : Nat) : Option Nat :=
  match h.get? i with
  | some (.sentinelN _ []) => none
  | some (.sentinelN _ (p :: _)) => some p
  | some (.displayableN _ []) => none
  | some (.displayableN _ (p :: _)) => some p
  | some (.carrierN _ c) => some c
  | some (.wrapN _ c) => some c
  | some (.customN _ u) => u
  | _ => none

/-- errorsIs is the Go `errors.Is(err, target)` protocol, with fuel standing
for the number of protocol steps Go would execute (Go itself loops forever
on a cyclic chain, which the model renders as `false` never stabilising to
`true`; on acyclic chains any fuel above the chain depth gives the Go
answer).  One step: pointer equality `err == target`; then the node's own
`Is` method when it has one — `sentinel.Is` (src/errx.go lines 125-139)
checks identity (subsumed by the outer pointer check) and then
`errors.Is(parent, target)` over the parent list, `carrier.Is`
(lines 252-264) checks `errors.Is(cause, target)` and then each
classification; then the unwrap step of `errors.Is`: follow `Unwrap()
error`, or recurse into every member of `Unwrap() []error`. -/
def errorsIs (h : Heap) : Nat → Nat → Nat → Bool
  | 0, _, _ => false
  | fuel + 1, e, t =>
    if e = t then true
    else
      match h.get? e with
      | none => false
      | some (.sentinelN _ ps) =>
          ps.any (fun p => errorsIs h fuel p t) ||
            (ps.head?).elim false (fun p => errorsIs h fuel p t)
      | some (.displayableN _ ps) =>
          ps.any (fun p => errorsIs h fuel p t) ||
            (ps.head?).elim false (fun p => errorsIs h fuel p t)
      | some (.carrierN cls c) =>
          (errorsIs h fuel c t || cls.any (fun m => errorsIs h fuel m t)) ||
            errorsIs h fuel c t
      | some (.wrapN _ c) => errorsIs h fuel c t
      | some (.attributedN _) => false
      | some (.multiN _ cs) => cs.any (fun u => errorsIs h fuel u t)
      | some (.customN _ u) =>
          u.elim false (fun u' => errorsIs h fuel u' t)

/-- parentsOf returns the parent list of a sentinel or displayable node and
the empty list for every other node. -/
def parentsOf (h : Heap) (i : Nat) : List Nat :=
  match h.get? i with
  | some (.sentinelN _ ps) => ps
  | some (.displayableN _ ps) => ps
  | _ => []

/-- ancestorClosureF is the transitive parent closure of a sentinel, with
fuel: each parent contributes itself followed by its own closure, in
declaration order.  This is the spec's ancestor closure `A(s)`. -/
def ancestorClosureF (h : Heap) : Nat → Nat → List Nat
  | 0, _ => []
  | fuel + 1, i =>
      ((parentsOf h i).map (fun p => p :: ancestorClosureF h fuel p)).flatten

/-- ancestorClosure is the ancestor closure at the canonical fuel `s + 1`,
which is enough for any hierarchy whose parents point to strictly smaller
indices. -/
def ancestorClosure (h : Heap) (s : Nat) : List Nat :=
  ancestorClosureF h (s + 1) s

/-- sentinelHeapB checks that the heap is a pure sentinel hierarchy: every
node is a sentinel whose parents are strictly older allocations (the
acyclicity contract that `NewSentinel`'s documentation places on callers,
which holds for every hierarchy actually constructible by `NewSentinel`
since parents must exist before the child). -/
def sentinelHeapB (h : Heap) : Bool :=
  (List.range h.length).all (fun i =>
    match h.get? i with
    | some (.sentinelN _ ps) => ps.all (fun p => decide (p < i))
    | _ => false)

lemma get?_append_left {α} (l₁ l₂ : List α) {n : Nat} (hn : n < l₁.length) :
    (l₁ ++ l₂).get? n = l₁.get? n := by
  simp [List.get?_eq_getElem?, List.getElem?_append_left hn]

/-- errorMsg only inspects nodes at or below the rendered index, so
extending the heap with fresh allocations never changes the rendered
message of an existing error. -/
lemma errorMsg_append (h : Heap) (ext : Heap) :
    ∀ i, i < h.length → errorMsg (h ++ ext) i = errorMsg h i := by
  intro i
  induction i using Nat.strong_induction_on with
  | _ i ih =>
    intro hi
    rw [errorMsg_step, errorMsg_step, get?_append_left _ _ hi]
    cases hg : h.get? i with
    | none => rfl
    | some n =>
      cases n with
      | carrierN cls c =>
        by_cases hc : c < i
        · simp only [if_pos hc]
          exact ih c hc (Nat.lt_trans hc hi)
        · simp only [if_neg hc]
      | wrapN t c =>
        by_cases hc : c < i
        · simp only [if_pos hc, ih c hc (Nat.lt_trans hc hi)]
        · simp only [if_neg hc]
      | sentinelN t ps => rfl
      | displayableN t ps => rfl
      | attributedN attrs => rfl
      | multiN t cs => rfl
      | customN t u => rfl

/-- sentinelHeap_node extracts, from the boolean hierarchy check, the shape
of each node: a sentinel whose parents are strictly older. -/
lemma sentinelHeap_node {h : Heap} (hs : sentinelHeapB h = true) {i : Nat}
    (hi : i < h.length) :
    ∃ t ps, h.get? i = some (.sentinelN t ps) ∧ ∀ p ∈ ps, p < i := by
  have := (List.all_eq_true.mp hs) i (List.mem_range.mpr hi)
  cases hg : h.get? i with
  | none => rw [hg] at this; exact absurd this (by simp)
  | some n =>
    cases n with
    | sentinelN t ps =>
      refine ⟨t, ps, rfl, fun p hp => ?_⟩
      rw [hg] at this
      simpa using (List.all_eq_true.mp this) p hp
    | displayableN t ps => rw [hg] at this; exact absurd this (by simp)
    | attributedN attrs => rw [hg] at this; exact absurd this (by simp)
    | carrierN cls c => rw [hg] at this; exact absurd this (by simp)
    | wrapN t c => rw [hg] at this; exact absurd this (by simp)
    | multiN t cs => rw [hg] at this; exact absurd this (by simp)
    | customN t u => rw [hg] at this; exact absurd this (by simp)

lemma any_congr {α} {l : List α} {f g : α → Bool} (h : ∀ a ∈ l, f a = g a) :
    l.any f = l.any g := by
  induction l with
  | nil => rfl
  | cons a l ih =>
    simp only [List.any_cons, h a (List.mem_cons_self a l),
      ih (fun b hb => h b (List.mem_cons_of_mem a hb))]

/-- errorsIs over a pure sentinel hierarchy only inspects nodes at or below
the start index, so heap extension does not change its verdict there. -/
lemma errorsIs_append {h : Heap} (hs : sentinelHeapB h = true) (ext : Heap) :
    ∀ fuel e t, e < h.length →
      errorsIs (h ++ ext) fuel e t = errorsIs h fuel e t := by
  intro fuel
  induction fuel with
  | zero => intro e t _; rfl
  | succ f ih =>
    intro e t he
    obtain ⟨tx, ps, hg, hps⟩ := sentinelHeap_node hs he
    rw [errorsIs, errorsIs]
    by_cases het : e = t
    · simp [het]
    · simp only [if_neg het, get?_append_left _ _ he, hg]
      have hrec : ∀ p ∈ ps, errorsIs (h ++ ext) f p t = errorsIs h f p t :=
        fun p hp => ih p t (Nat.lt_trans (hps p hp) he)
      rw [any_congr hrec]
      cases ps with
      | nil => rfl
      | cons p ps' =>
        simp only [List.head?_cons, Option.elim,
          hrec p (List.mem_cons_self p ps')]

/-- ancestorClosureF is fuel-stable over a sentinel hierarchy: any fuel
above the node index computes the same closure. -/
lemma ancF_stable {h : Heap} (hs : sentinelHeapB h = true) :
    ∀ s, s < h.length → ∀ fuel, s < fuel →
      ancestorClosureF h fuel s = ancestorClosure h s := by
  intro s
  induction s using Nat.strong_induction_on with
  | _ s ih =>
    intro hsl fuel hfuel
    obtain ⟨tx, ps, hg, hps⟩ := sentinelHeap_node hs hsl
    obtain ⟨f, rfl⟩ : ∃ f, fuel = f + 1 :=
      ⟨fuel - 1, by omega⟩
    show ancestorClosureF h (f + 1) s = ancestorClosureF h (s + 1) s
    rw [ancestorClosureF, ancestorClosureF]
    refine congrArg List.flatten (List.map_congr_left fun p hp => ?_)
    have hpmem : p ∈ ps := by
      have : parentsOf h s = ps := by rw [parentsOf, hg]
      rwa [this] at hp
    have hplt : p < s := hps p hpmem
    have hpl : p < h.length := Nat.lt_trans hplt hsl
    rw [ih p hplt hpl f (by omega), ih p hplt hpl s hplt]

/-- errorsIs on a sentinel of a pure hierarchy answers true exactly for the
sentinel itself and for members of its transitive ancestor closure, for any
fuel above the sentinel's index. -/
lemma errorsIs_sentinel_iff {h : Heap} (hs : sentinelHeapB h = true) :
    ∀ s, s < h.length → ∀ fuel, s < fuel → ∀ t,
      (errorsIs h fuel s t = true ↔ t = s ∨ t ∈ ancestorClosure h s) := by
  intro s
  induction s using Nat.strong_induction_on with
  | _ s ih =>
    intro hsl fuel hfuel t
    obtain ⟨tx, ps, hg, hps⟩ := sentinelHeap_node hs hsl
    obtain ⟨f, rfl⟩ : ∃ f, fuel = f + 1 := ⟨fuel - 1, by omega⟩
    have hpar : parentsOf h s = ps := by rw [parentsOf, hg]
    by_cases hts : t = s
    · subst hts
      constructor
      · intro _; exact Or.inl rfl
      · intro _; rw [errorsIs]; simp
    · have hst : ¬ s = t := fun hh => hts hh.symm
      rw [errorsIs]
      simp only [if_neg hst, hg]
      have hmem : t ∈ ancestorClosure h s ↔
          ∃ p ∈ ps, t = p ∨ t ∈ ancestorClosure h p := by
        rw [ancestorClosure, ancestorClosureF, hpar]
        simp only [List.mem_flatten, List.mem_map]
        constructor
        · rintro ⟨l, ⟨p, hp, rfl⟩, hmem⟩
          refine ⟨p, hp, ?_⟩
          rcases List.mem_cons.mp hmem with h1 | h2
          · exact Or.inl h1
          · right
            rwa [ancF_stable hs p (Nat.lt_trans (hps p hp) hsl) s (hps p hp)] at h2
        · rintro ⟨p, hp, hor⟩
          refine ⟨p :: ancestorClosureF h s p, ⟨p, hp, rfl⟩, ?_⟩
          rcases hor with h1 | h2
          · exact List.mem_cons.mpr (Or.inl h1)
          · refine List.mem_cons.mpr (Or.inr ?_)
            rwa [ancF_stable hs p (Nat.lt_trans (hps p hp) hsl) s (hps p hp)]
      have hbody : (ps.any (fun p => errorsIs h f p t) ||
          (ps.head?).elim false (fun p => errorsIs h f p t)) = true ↔
          ∃ p ∈ ps, errorsIs h f p t = true := by
        constructor
        · intro hh
          rcases Bool.or_eq_true_iff.mp hh with h1 | h2
          · exact List.any_eq_true.mp h1
          · cases ps with
            | nil => exact absurd h2 (by simp)
            | cons p ps' =>
              simp only [List.head?_cons, Option.elim] at h2
              exact ⟨p, List.mem_cons_self p ps', h2⟩
        · intro hh
          exact Bool.or_eq_true_iff.mpr (Or.inl (List.any_eq_true.mpr hh))
      rw [hbody, hmem]
      constructor
      · rintro ⟨p, hp, hrec⟩
        have hplt : p < s := hps p hp
        right
        refine ⟨p, hp, ?_⟩
        exact (ih p hplt (Nat.lt_trans hplt hsl) f (by omega) t).mp hrec
      · rintro (h1 | ⟨p, hp, hor⟩)
        · exact absurd h1 hts
        · have hplt : p < s := hps p hp
          exact ⟨p, hp,
            (ih p hplt (Nat.lt_trans hplt hsl) f (by omega) t).mpr hor⟩

lemma get?_append_length {α} (h : List α) (a : α) (rest : List α) :
    (h ++ a :: rest).get? h.length = some a := by
  induction h with
  | nil => rfl
  | cons x h ih => simpa using ih

/-- errorMsg of a freshly appended carrier is the message of its cause in
the old heap. -/
lemma errorMsg_carrier_append (h : Heap) (cls : List Nat) (cause : Nat)
    (hc : cause < h.length) (rest : Heap) :
    errorMsg (h ++ ErrNode.carrierN cls cause :: rest) h.length = errorMsg h cause := by
  rw [errorMsg_step]
  rw [get?_append_length h (ErrNode.carrierN cls cause) rest]
  simp only [if_pos hc]
  exact errorMsg_append h _ cause hc

/-- errorMsg of a freshly appended `fmt.Errorf("%s: %w", ...)` wrapper is
the context text, a colon and a space, then the message of its cause in the
old heap. -/
lemma errorMsg_wrap_append (h : Heap) (text : String) (k : Nat)
    (hk : k < h.length) (rest : Heap) :
    errorMsg (h ++ ErrNode.wrapN text k :: rest) h.length =
      text ++ ": " ++ errorMsg h k := by
  rw [errorMsg_step]
  rw [get?_append_length h (ErrNode.wrapN text k) rest]
  simp only [if_pos hk]
  rw [errorMsg_append h _ k hk]

/-- C1 (amended).  Classify renders exactly the cause's message and Wrap
renders exactly `text ++ ": " ++ cause message`; hence the rendered text is
a function of the context text and the cause message alone, and a
classification marker's own text occurs in the rendered message only when
it already occurs in the cause's message (for Classify) or in the composed
`text ++ ": " ++ cause` message (for Wrap).  The original claim's "unless
that text already occurs inside cause.Error()" is amended to allow the
marker text to overlap the caller's context text in the Wrap case. -/
theorem c1_amended (h : Heap) (text : String) (cause : Nat) (cls : List Nat)
    (hc : cause < h.length) :
    (classify h (some cause) cls).2 = some h.length
    ∧ errorMsg (classify h (some cause) cls).1 h.length = errorMsg h cause
    ∧ (∃ w, (wrap h text (some cause) cls).2 = some w ∧
        errorMsg (wrap h text (some cause) cls).1 w =
          text ++ ": " ++ errorMsg h cause)
    ∧ (∀ m ∈ cls,
        SubstrOf (errorMsg h m)
          (errorMsg (classify h (some cause) cls).1 h.length) →
        SubstrOf (errorMsg h m) (errorMsg h cause))
    ∧ (∀ m ∈ cls, ∀ w, (wrap h text (some cause) cls).2 = some w →
        SubstrOf (errorMsg h m) (errorMsg (wrap h text (some cause) cls).1 w) →
        SubstrOf (errorMsg h m) (text ++ ": " ++ errorMsg h cause)) := by
  have hcl : classify h (some cause) cls = (h ++ [ErrNode.carrierN cls cause], some h.length) := rfl
  have e1 : errorMsg (classify h (some cause) cls).1 h.length = errorMsg h cause := by
    rw [hcl]
    exact errorMsg_carrier_append h cls cause hc []
  have e2 : ∃ w, (wrap h text (some cause) cls).2 = some w ∧
      errorMsg (wrap h text (some cause) cls).1 w =
        text ++ ": " ++ errorMsg h cause := by
    by_cases hemp : cls.isEmpty
    · refine ⟨h.length, ?_, ?_⟩
      · simp [wrap, hemp]
      · have : wrap h text (some cause) cls = (h ++ [ErrNode.wrapN text cause], some h.length) := by
          simp [wrap, hemp]
        rw [this]
        exact errorMsg_wrap_append h text cause hc []
    · have hw : wrap h text (some cause) cls =
          ((h ++ [ErrNode.carrierN cls cause]) ++ [ErrNode.wrapN text h.length],
            some (h ++ [ErrNode.carrierN cls cause]).length) := by
        simp [wrap, hemp, classify]
      refine ⟨(h ++ [ErrNode.carrierN cls cause]).length, ?_, ?_⟩
      · rw [hw]
      · rw [hw]
        have hlen : h.length < (h ++ [ErrNode.carrierN cls cause]).length := by
          simp
        calc errorMsg ((h ++ [ErrNode.carrierN cls cause]) ++ [ErrNode.wrapN text h.length])
              (h ++ [ErrNode.carrierN cls cause]).length
            = text ++ ": " ++ errorMsg (h ++ [ErrNode.carrierN cls cause]) h.length :=
              errorMsg_wrap_append (h ++ [ErrNode.carrierN cls cause]) text h.length hlen []
          _ = text ++ ": " ++ errorMsg h cause := by
              rw [errorMsg_carrier_append h cls cause hc []]
  refine ⟨by rw [hcl], e1, e2, ?_, ?_⟩
  · intro m _ hsub
    rwa [e1] at hsub
  · intro m _ w hw hsub
    obtain ⟨w', hw', he'⟩ := e2
    rw [hw] at hw'
    cases hw'
    rwa [he'] at hsub

/-- Witness for C1 at a concrete heap: classifying a base error with a
sentinel leaves the rendered message equal to the base message. -/
theorem c1_amended_witness :
    (0 : Nat) < ([ErrNode.customN "boom" none, ErrNode.sentinelN "db" []] : Heap).length
    ∧ errorMsg (classify [ErrNode.customN "boom" none, ErrNode.sentinelN "db" []]
          (some 0) [1]).1 2 =
        errorMsg [ErrNode.customN "boom" none, ErrNode.sentinelN "db" []] 0 :=
  ⟨by decide,
    (c1_amended [ErrNode.customN "boom" none, ErrNode.sentinelN "db" []]
      "ctx" 0 [1] (by decide)).2.1⟩

/-- Counterexample for C1 as stated: wrapping cause "boom" with context
text "db" and a sentinel whose own text is "db" renders "db: boom", in
which the marker's text "db" appears as a substring although "db" does not
occur inside the cause's message "boom". -/
theorem c1_counterexample :
    errorMsg (wrap [ErrNode.customN "boom" none, ErrNode.sentinelN "db" []]
        "db" (some 0) [1]).1 3 = "db: boom"
    ∧ errorMsg [ErrNode.customN "boom" none, ErrNode.sentinelN "db" []] 1 = "db"
    ∧ errorMsg [ErrNode.customN "boom" none, ErrNode.sentinelN "db" []] 0 = "boom"
    ∧ SubstrOf "db" "db: boom"
    ∧ ¬ SubstrOf "db" "boom" := by
  refine ⟨by decide, by decide, by decide, by decide, by decide⟩

/-- C2.  Wrapping or classifying a nil cause yields nil, for every heap,
context text and classification list, and allocates nothing (the heap is
returned unchanged), so no carrier wrapping a nil cause ever exists. -/
theorem c2_nil_propagation :
    ∀ (h : Heap) (text : String) (cls : List Nat),
      wrap h text none cls = (h, none) ∧ classify h none cls = (h, none) :=
  fun _ _ _ => ⟨rfl, rfl⟩

/-- errorsIs on a plain `errors.New`-style error (no Is, no As, no Unwrap)
is pointer identity. -/
lemma errorsIs_custom_none {h : Heap} {e : Nat} {tx : String}
    (hg : h.get? e = some (.customN tx none)) :
    ∀ fuel t, 0 < fuel → (errorsIs h fuel e t = true ↔ t = e) := by
  intro fuel t hf
  obtain ⟨f, rfl⟩ : ∃ f, fuel = f + 1 := ⟨fuel - 1, by omega⟩
  rw [errorsIs]
  by_cases het : e = t
  · simp [het]
  · simp only [if_neg het, hg, Option.elim]
    constructor
    · intro hh; exact absurd hh (by simp)
    · intro hh; exact absurd hh.symm het

/-- C3 (amended).  Matching `classify(baseErr, s)` against a target `t`
with the `errors.Is` protocol answers true exactly when `t` is the carrier
itself, `t` is the base error (matched through the cause, which
`carrier.Is` consults first), `t` is the sentinel `s`, or `t` lies in the
transitive ancestor closure `A(s)`.  The original claim listed only `s` and
`A(s)`; the carrier and the base error are the two cases the
counterexample forces. -/
theorem c3_amended (h : Heap) (btxt : String) (s : Nat)
    (hs : sentinelHeapB h = true) (hsl : s < h.length) :
    classify (h ++ [ErrNode.customN btxt none]) (some h.length) [s] =
      (h ++ [ErrNode.customN btxt none, ErrNode.carrierN [s] h.length],
        some (h.length + 1))
    ∧ ∀ t fuel, h.length + 2 ≤ fuel →
        (errorsIs (h ++ [ErrNode.customN btxt none, ErrNode.carrierN [s] h.length])
            fuel (h.length + 1) t = true
          ↔ t = h.length + 1 ∨ t = h.length ∨ t = s ∨ t ∈ ancestorClosure h s) := by
  constructor
  · simp [classify]
  · intro t fuel hf
    obtain ⟨f, rfl⟩ : ∃ f, fuel = f + 1 := ⟨fuel - 1, by omega⟩
    have hflen : h.length + 1 ≤ f := by omega
    rw [errorsIs]
    by_cases hkt : h.length + 1 = t
    · simp only [if_pos hkt]
      constructor
      · intro _; exact Or.inl hkt.symm
      · intro _; exact trivial
    · simp only [if_neg hkt]
      have hgk : (h ++ [ErrNode.customN btxt none,
          ErrNode.carrierN [s] h.length]).get? (h.length + 1) =
          some (ErrNode.carrierN [s] h.length) := by
        have hsplit : h ++ [ErrNode.customN btxt none,
            ErrNode.carrierN [s] h.length] =
            (h ++ [ErrNode.customN btxt none]) ++
              [ErrNode.carrierN [s] h.length] := by simp
        rw [hsplit]
        have hlen1 : (h ++ [ErrNode.customN btxt none]).length = h.length + 1 := by
          simp
        rw [← hlen1]
        exact
          get?_append_length (h ++ [ErrNode.customN btxt none]) _ []
      rw [hgk]
      have hgb : (h ++ [ErrNode.customN btxt none,
          ErrNode.carrierN [s] h.length]).get? h.length =
          some (ErrNode.customN btxt none) :=
        get?_append_length h _ _
      have hA : errorsIs (h ++ [ErrNode.customN btxt none,
          ErrNode.carrierN [s] h.length]) f h.length t = true ↔ t = h.length :=
        errorsIs_custom_none hgb f t (by omega)
      have hB : errorsIs (h ++ [ErrNode.customN btxt none,
          ErrNode.carrierN [s] h.length]) f s t = true ↔
          t = s ∨ t ∈ ancestorClosure h s := by
        rw [errorsIs_append hs _ f s t hsl]
        exact errorsIs_sentinel_iff hs s hsl f (by omega) t
      constructor
      · intro hh
        rcases Bool.or_eq_true_iff.mp hh with h1 | h2
        · rcases Bool.or_eq_true_iff.mp h1 with h3 | h4
          · exact Or.inr (Or.inl (hA.mp h3))
          · simp only [List.any_cons, List.any_nil, Bool.or_false] at h4
            rcases hB.mp h4 with h5 | h6
            · exact Or.inr (Or.inr (Or.inl h5))
            · exact Or.inr (Or.inr (Or.inr h6))
        · exact Or.inr (Or.inl (hA.mp h2))
      · rintro (h1 | h2 | h3 | h4)
        · exact absurd h1.symm hkt
        · refine Bool.or_eq_true_iff.mpr (Or.inl (Bool.or_eq_true_iff.mpr (Or.inl ?_)))
          exact hA.mpr h2
        · refine Bool.or_eq_true_iff.mpr (Or.inl (Bool.or_eq_true_iff.mpr (Or.inr ?_)))
          simp only [List.any_cons, List.any_nil, Bool.or_false]
          exact hB.mpr (Or.inl h3)
        · refine Bool.or_eq_true_iff.mpr (Or.inl (Bool.or_eq_true_iff.mpr (Or.inr ?_)))
          simp only [List.any_cons, List.any_nil, Bool.or_false]
          exact hB.mpr (Or.inr h4)

/-- Witness for C3 at a concrete two-sentinel hierarchy: the carrier built
by classify matches the classified sentinel's parent through the ancestor
closure. -/
theorem c3_amended_witness :
    errorsIs [ErrNode.sentinelN "p" [], ErrNode.sentinelN "s" [0],
        ErrNode.customN "boom" none, ErrNode.carrierN [1] 2] 5 3 0 = true := by
  have hiff :=
    (c3_amended [ErrNode.sentinelN "p" [], ErrNode.sentinelN "s" [0]] "boom" 1
        (by decide) (by decide)).2 0 5 (by decide)
  exact hiff.mpr (by decide)

/-- Counterexample for C3 as stated: matching the carrier
`classify(baseErr, s)` against the base error itself answers true, yet the
base error is neither `s` nor an ancestor of `s`. -/
theorem c3_counterexample :
    errorsIs [ErrNode.sentinelN "s" [], ErrNode.customN "boom" none,
        ErrNode.carrierN [0] 1] 5 2 1 = true
    ∧ ¬ ((1 : Nat) = 0 ∨ 1 ∈ ancestorClosure [ErrNode.sentinelN "s" []] 0) := by
  decide

/-- isDispNode is the `errors.As` assignability test for target type
`**displayable`: only a displayable node matches. -/
def isDispNode : ErrNode → Bool
  | .displayableN _ _ => true
  | _ => false

/-- isAttrNode is the `errors.As` assignability test for target type
`**attributed`: only an attributed node matches. -/
def isAttrNode : ErrNode → Bool
  | .attributedN _ => true
  | _ => false

/-- isTracedNode is the `errors.As` assignability test for the stacktrace
package's `**traced` target.  The model contains no traced allocations (the
stack capture primitive is runtime state), so no node matches; the search
itself still walks the graph exactly as `errors.As` does. -/
def isTracedNode : ErrNode → Bool := fun _ => false

/-- firstSome runs a typed search over candidates in order, propagating the
three-valued outcome: `none` when a candidate's search diverges,
`some (some d)` for the first hit, `some none` when every candidate
answers no-match.  This is the evaluation order of the `for` loops in
`sentinel.As` and `carrier.As` and of the multi-error arm of `errors.As`. -/
def firstSome (g : Nat → Option (Option Nat)) : List Nat → Option (Option Nat)
  | [] => some none
  | x :: xs =>
    match g x with
    | none => none
    | some (some d) => some (some d)
    | some none => firstSome g xs

/-- orElseFound chains a search step with a fall-through continuation:
divergence and hits short-circuit, no-match falls through. -/
def orElseFound (a : Option (Option Nat)) (b : Unit → Option (Option Nat)) :
    Option (Option Nat) :=
  match a with
  | none => none
  | some (some d) => some (some d)
  | some none => b ()

/-- findAs is the Go `errors.As(err, target)` protocol specialised by the
assignability test of the target type, with fuel for the protocol steps (Go
loops forever on a cyclic chain with no matching node; the model renders
that as `none` for every fuel).  One protocol step on a node: (1) the
assignability check against the node itself; (2) the node's own `As`
method when it has one — `sentinel.As` (src/errx.go lines 142-150) runs
`errors.As(parent, target)` over the parent list only, `displayable`
promotes that method, `carrier.As` (lines 266-278) runs `errors.As` on the
cause and then on each classification; (3) the unwrap step of `errors.As`:
follow `Unwrap() error`, or search every member of `Unwrap() []error`. -/
def findAs (h : Heap) (isTarget : ErrNode → Bool) : Nat → Nat → Option (Option Nat)
  | 0, _ => none
  | fuel + 1, e =>
    match h.get? e with
    | none => some none
    | some n =>
      if isTarget n then some (some e)
      else
        orElseFound
          (match n with
           | .sentinelN _ ps => firstSome (fun p => findAs h isTarget fuel p) ps
           | .displayableN _ ps => firstSome (fun p => findAs h isTarget fuel p) ps
           | .carrierN cls c => firstSome (fun x => findAs h isTarget fuel x) (c :: cls)
           | _ => some none)
          (fun _ =>
            match n with
            | .sentinelN _ ps =>
                (ps.head?).elim (some none) (fun p => findAs h isTarget fuel p)
            | .displayableN _ ps =>
                (ps.head?).elim (some none) (fun p => findAs h isTarget fuel p)
            | .carrierN _ c => findAs h isTarget fuel c
            | .wrapN _ c => findAs h isTarget fuel c
            | .customN _ u => u.elim (some none) (fun x => findAs h isTarget fuel x)
            | .multiN _ cs => firstSome (fun x => findAs h isTarget fuel x) cs
            | .attributedN _ => some none)

/-- sentinelAsMethod is `sentinel.As` of src/errx.go lines 142-150 in
isolation: `errors.As(parent, target)` over the parent list only — the
sentinel itself is never tested against the target type. -/
def sentinelAsMethod (h : Heap) (isTarget : ErrNode → Bool) (fuel : Nat)
    (ps : List Nat) : Option (Option Nat) :=
  firstSome (fun p => findAs h isTarget fuel p) ps

/-- IsDisplayableF is `IsDisplayable`: nil answers false, otherwise
`errors.As` with a `*displayable` target decides. -/
def IsDisplayableF (h : Heap) (fuel : Nat) (e : Option Nat) : Option Bool :=
  match e with
  | none => some false
  | some i => (findAs h isDispNode fuel i).map Option.isSome

/-- DisplayTextF is `DisplayText`: nil renders as the empty string; a found
displayable renders its own stored message; otherwise the full message of
the outermost error is rendered. -/
def DisplayTextF (h : Heap) (fuel : Nat) (e : Option Nat) : Option String :=
  match e with
  | none => some ""
  | some i =>
    match findAs h isDispNode fuel i with
    | none => none
    | some (some d) => some (errorMsg h d)
    | some none => some (errorMsg h i)

/-- DisplayTextDefaultF is `DisplayTextDefault`: nil yields the empty
string regardless of the fallback; otherwise `IsDisplayable` decides
between `DisplayText` and the fallback. -/
def DisplayTextDefaultF (h : Heap) (fuel : Nat) (e : Option Nat) (fb : String) :
    Option String :=
  match e with
  | none => some ""
  | some i =>
    match IsDisplayableF h fuel (some i) with
    | none => none
    | some true => DisplayTextF h fuel (some i)
    | some false => some fb

/-- HasAttrsF is `HasAttrs` of src/attributed.go lines 239-246: nil answers
false, otherwise `errors.As` with an `*attributed` target decides — note
this is the plain unwrap-chain search, not the visited-set traversal. -/
def HasAttrsF (h : Heap) (fuel : Nat) (e : Option Nat) : Option Bool :=
  match e with
  | none => some false
  | some i => (findAs h isAttrNode fuel i).map Option.isSome

lemma firstSome_found {g : Nat → Option (Option Nat)} :
    ∀ {l : List Nat} {d : Nat}, firstSome g l = some (some d) →
      ∃ x ∈ l, g x = some (some d) := by
  intro l
  induction l with
  | nil => intro d hh; exact absurd hh (by simp [firstSome])
  | cons x xs ih =>
    intro d hh
    rw [firstSome] at hh
    cases hgx : g x with
    | none => rw [hgx] at hh; exact absurd hh (by simp)
    | some o =>
      cases o with
      | none =>
        rw [hgx] at hh
        obtain ⟨y, hy, hgy⟩ := ih hh
        exact ⟨y, List.mem_cons_of_mem x hy, hgy⟩
      | some d' =>
        rw [hgx] at hh
        have : d' = d := by simpa using hh
        exact ⟨x, List.mem_cons_self x xs, by rw [hgx, this]⟩

lemma orElseFound_found {a : Option (Option Nat)} {b : Unit → Option (Option Nat)}
    {d : Nat} (hh : orElseFound a b = some (some d)) :
    a = some (some d) ∨ b () = some (some d) := by
  rcases a with _ | (_ | d')
  · exact absurd hh (by simp [orElseFound])
  · exact Or.inr hh
  · exact Or.inl (by simpa [orElseFound] using hh)

/-- findAs only ever reports a node that passes the assignability test of
the target type: a hit of the displayable search is a displayable node, a
hit of the attributed search is an attributed node. -/
lemma findAs_found {h : Heap} {isT : ErrNode → Bool} :
    ∀ fuel e d, findAs h isT fuel e = some (some d) →
      ∃ n, h.get? d = some n ∧ isT n = true := by
  intro fuel
  induction fuel with
  | zero => intro e d hh; exact absurd hh (by simp [findAs])
  | succ f ih =>
    intro e d hh
    rw [findAs] at hh
    split at hh
    · exact absurd hh (by simp)
    · rename_i n hg
      by_cases ht : isT n
      · rw [if_pos ht] at hh
        have hed : e = d := by simpa using hh
        exact ⟨n, hed ▸ hg, ht⟩
      · rw [if_neg ht] at hh
        rcases orElseFound_found hh with h1 | h2
        · cases n with
          | sentinelN tx ps =>
            obtain ⟨p, _, hp⟩ := firstSome_found h1
            exact ih p d hp
          | displayableN tx ps =>
            obtain ⟨p, _, hp⟩ := firstSome_found h1
            exact ih p d hp
          | carrierN cls c =>
            obtain ⟨p, _, hp⟩ := firstSome_found h1
            exact ih p d hp
          | attributedN attrs => exact absurd h1 (by simp)
          | wrapN tx c => exact absurd h1 (by simp)
          | multiN tx cs => exact absurd h1 (by simp)
          | customN tx u => exact absurd h1 (by simp)
        · cases n with
          | sentinelN tx ps =>
            cases ps with
            | nil => exact absurd h2 (by simp)
            | cons p ps' =>
              simp only [List.head?_cons, Option.elim] at h2
              exact ih p d h2
          | displayableN tx ps =>
            cases ps with
            | nil => exact absurd h2 (by simp)
            | cons p ps' =>
              simp only [List.head?_cons, Option.elim] at h2
              exact ih p d h2
          | carrierN cls c => exact ih c d h2
          | wrapN tx c => exact ih c d h2
          | customN tx u =>
            cases u with
            | none => exact absurd h2 (by simp)
            | some u' =>
              simp only [Option.elim] at h2
              exact ih u' d h2
          | multiN tx cs =>
            obtain ⟨p, _, hp⟩ := firstSome_found h2
            exact ih p d hp
          | attributedN attrs => exact absurd h2 (by simp)

/-- C6.  DisplayText renders the stored message of the displayable node the
`errors.As` search finds — that node's own text, not the outer composed
message — and renders the outermost error's full message when the search
finds none; DisplayTextDefault performs the same search but substitutes the
caller's fallback when the search finds none; and a nil input yields the
empty string regardless of the fallback. -/
theorem c6_display_text (h : Heap) (fuel : Nat) (i : Nat) (fb : String) :
    (∀ d, findAs h isDispNode fuel i = some (some d) →
      ∃ txt ps, h.get? d = some (.displayableN txt ps)
        ∧ DisplayTextF h fuel (some i) = some txt
        ∧ DisplayTextDefaultF h fuel (some i) fb = some txt)
    ∧ (findAs h isDispNode fuel i = some none →
        DisplayTextF h fuel (some i) = some (errorMsg h i)
        ∧ DisplayTextDefaultF h fuel (some i) fb = some fb)
    ∧ DisplayTextDefaultF h fuel none fb = some "" := by
  refine ⟨?_, ?_, rfl⟩
  · intro d hf
    obtain ⟨n, hg, ht⟩ := findAs_found fuel i d hf
    obtain ⟨txt, ps, rfl⟩ : ∃ txt ps, n = ErrNode.displayableN txt ps := by
      cases n with
      | displayableN txt ps => exact ⟨txt, ps, rfl⟩
      | sentinelN txt ps => exact absurd ht (by simp [isDispNode])
      | attributedN attrs => exact absurd ht (by simp [isDispNode])
      | carrierN cls c => exact absurd ht (by simp [isDispNode])
      | wrapN txt c => exact absurd ht (by simp [isDispNode])
      | multiN txt cs => exact absurd ht (by simp [isDispNode])
      | customN txt u => exact absurd ht (by simp [isDispNode])
    have hdt : DisplayTextF h fuel (some i) = some txt := by
      rw [DisplayTextF, hf]
      show some (errorMsg h d) = some txt
      rw [errorMsg_step, hg]
    refine ⟨txt, ps, hg, hdt, ?_⟩
    rw [DisplayTextDefaultF, IsDisplayableF, hf]
    show DisplayTextF h fuel (some i) = some txt
    exact hdt
  · intro hf
    constructor
    · rw [DisplayTextF, hf]
    · rw [DisplayTextDefaultF, IsDisplayableF, hf]
      rfl

/-- Witness for C6: under `wrap("ctx", displayable "msg")` the display text
is the displayable's own "msg" while the composed message is "ctx: msg";
nil yields the empty string. -/
theorem c6_display_text_witness :
    DisplayTextF [ErrNode.displayableN "msg" [], ErrNode.wrapN "ctx" 0] 3
        (some 1) = some "msg"
    ∧ DisplayTextDefaultF [ErrNode.displayableN "msg" [], ErrNode.wrapN "ctx" 0] 3
        none "fb" = some "" := by
  have H := c6_display_text [ErrNode.displayableN "msg" [], ErrNode.wrapN "ctx" 0]
    3 1 "fb"
  obtain ⟨txt, ps, hg, h1, h2⟩ := H.1 0 (by decide)
  have hgl : ([ErrNode.displayableN "msg" [], ErrNode.wrapN "ctx" 0] : Heap).get? 0 =
      some (ErrNode.displayableN "msg" []) := rfl
  rw [hgl] at hg
  injection hg with hg'
  cases hg'
  exact ⟨h1, H.2.2⟩

/-- C9.  The sentinel's `As` method searches only the parent list — never
the sentinel itself — so for a parentless sentinel it reports no match for
every target type, even one whose assignability test accepts the sentinel
node itself; the full `errors.As` protocol still finds such a sentinel
through its own assignability check, which is exactly the asymmetry the
spec records. -/
theorem c9_sentinel_as_parents_only (h : Heap) (s : Nat) (txt : String)
    (isTarget : ErrNode → Bool) (fuel : Nat)
    (hg : h.get? s = some (.sentinelN txt [])) :
    sentinelAsMethod h isTarget fuel (parentsOf h s) = some none
    ∧ (isTarget (.sentinelN txt []) = true →
        findAs h isTarget (fuel + 1) s = some (some s)) := by
  have hp : parentsOf h s = [] := by rw [parentsOf, hg]
  constructor
  · rw [hp]; rfl
  · intro ht
    rw [findAs]
    split
    · rename_i hnone
      rw [hg] at hnone
      exact absurd hnone (by simp)
    · rename_i n hsome
      rw [hg] at hsome
      injection hsome with hn
      cases hn
      rw [if_pos ht]

/-- Witness for C9 at a concrete parentless sentinel with a universally
matching target type. -/
theorem c9_sentinel_as_witness :
    sentinelAsMethod [ErrNode.sentinelN "lone" []] (fun _ => true) 5
        (parentsOf [ErrNode.sentinelN "lone" []] 0) = some none
    ∧ findAs [ErrNode.sentinelN "lone" []] (fun _ => true) 6 0 = some (some 0) := by
  have H := c9_sentinel_as_parents_only [ErrNode.sentinelN "lone" []] 0 "lone"
    (fun _ => true) 5 rfl
  exact ⟨H.1, H.2 rfl⟩

/-- attrsAt reads the attribute payload of an attributed node (`aErr.attrs`
in the Go loop) and the empty list elsewhere. -/
def attrsAt (h : Heap) (i : Nat) : List Attr :=
  match h.get? i with
  | some (.attributedN a) => a
  | _ => []

/-- isAttributedAt is the `current.(*attributed)` type assertion of the Go
loop. -/
def isAttributedAt (h : Heap) (i : Nat) : Bool :=
  match h.get? i with
  | some (.attributedN _) => true
  | _ => false

/-- enqueueTargets is what one iteration of the `ExtractAttrs` loop
(src/attributed.go lines 303-339) appends to the queue for the current
node: a carrier appends its classifications and then its single unwrap
target (the cause); a multi-error appends all members of its
`Unwrap() []error`; every other node appends its `errors.Unwrap` target
when that is non-nil (for a sentinel or displayable this is the first
parent). -/
def enqueueTargets (h : Heap) (i : Nat) : List Nat :=
  match h.get? i with
  | some (.carrierN cls c) => cls ++ [c]
  | some (.multiN _ cs) => cs
  | some (.sentinelN _ []) => []
  | some (.sentinelN _ (p :: _)) => [p]
  | some (.displayableN _ []) => []
  | some (.displayableN _ (p :: _)) => [p]
  | some (.wrapN _ c) => [c]
  | some (.customN _ none) => []
  | some (.customN _ (some u)) => [u]
  | some (.attributedN _) => []
  | none => []

/-- stepFound updates the `attributedErrorsFound` set of the Go loop when
visiting a node: a not-yet-recorded attributed node is recorded. -/
def stepFound (h : Heap) (i : Nat) (found : List Nat) : List Nat :=
  match h.get? i with
  | some (.attributedN _) => if i ∈ found then found else i :: found
  | _ => found

/-- stepAcc updates the `allAttrs` accumulator of the Go loop when visiting
a node: a not-yet-recorded attributed node appends its attribute list. -/
def stepAcc (h : Heap) (i : Nat) (found : List Nat) (acc : List Attr) : List Attr :=
  match h.get? i with
  | some (.attributedN attrs) => if i ∈ found then acc else acc ++ attrs
  | _ => acc

/-- exLoopF is the queue loop of `ExtractAttrs` (src/attributed.go lines
303-339) with fuel counting loop iterations: pop the front, skip it when
the pointer-identity visited set already holds it, otherwise mark it
visited, record its attributes when it is a new attributed instance, and
enqueue its classification and unwrap targets.  `none` means the fuel ran
out before the queue emptied; `traversalBound` fuel always suffices. -/
def exLoopF (h : Heap) :
    Nat → List Nat → List Nat → List Nat → List Attr → Option (List Attr)
  | _, [], _, _, acc => some acc
  | 0, _ :: _, _, _, _ => none
  | fuel + 1, i :: rest, visited, found, acc =>
    if i ∈ visited then exLoopF h fuel rest visited found acc
    else
      exLoopF h fuel (rest ++ enqueueTargets h i) (i :: visited)
        (stepFound h i found) (stepAcc h i found acc)

/-- nodeFanout is the number of queue entries a node contributes when
visited — the length of `enqueueTargets`. -/
def nodeFanout : ErrNode → Nat
  | .sentinelN _ [] => 0
  | .sentinelN _ (_ :: _) => 1
  | .displayableN _ [] => 0
  | .displayableN _ (_ :: _) => 1
  | .attributedN _ => 0
  | .carrierN cls _ => cls.length + 1
  | .wrapN _ _ => 1
  | .multiN _ cs => cs.length
  | .customN _ none => 0
  | .customN _ (some _) => 1

/-- fanoutAt is `nodeFanout` looked up in the heap, zero off the heap. -/
def fanoutAt (h : Heap) (j : Nat) : Nat :=
  match h.get? j with
  | some n => nodeFanout n
  | none => 0

/-- unvisitedWeight sums the fanouts of the heap nodes not yet visited; it
is the potential that shrinks as the traversal makes progress. -/
def unvisitedWeight (h : Heap) (visited : List Nat) : Nat :=
  ((Finset.range h.length).filter (fun j => j ∉ visited)).sum (fun j => fanoutAt h j)

/-- traversalBound is enough fuel for the traversal of any root: one
iteration for the root plus one per enqueued target, each node enqueuing
its targets at most once. -/
def traversalBound (h : Heap) : Nat :=
  1 + unvisitedWeight h []

/-- extractAttrs is `ExtractAttrs` of src/attributed.go lines 291-346: nil
yields nil; otherwise the queue loop runs from the root with fresh visited
and found sets (at `traversalBound` fuel, which always completes). -/
def extractAttrs (h : Heap) (e : Option Nat) : List Attr :=
  match e with
  | none => []
  | some r => (exLoopF h (traversalBound h) [r] [] [] []).getD []

/-- bfsDiscoveryOrder, modelled from the spec: the breadth-first
first-discovery order of the reachable error graph — pop the front of the
queue, skip already-visited nodes, record a new node and enqueue its
targets.  Second definition written to the spec's words for the refinement
claim about `ExtractAttrs`. -/
def bfsF (h : Heap) : Nat → List Nat → List Nat → Option (List Nat)
  | _, [], _ => some []
  | 0, _ :: _, _ => none
  | fuel + 1, i :: rest, visited =>
    if i ∈ visited then bfsF h fuel rest visited
    else
      match bfsF h fuel (rest ++ enqueueTargets h i) (i :: visited) with
      | none => none
      | some order => some (i :: order)

/-- bfsDiscoveryOrderOf runs the spec's BFS from a root with fresh state. -/
def bfsDiscoveryOrderOf (h : Heap) (r : Nat) : List Nat :=
  (bfsF h (traversalBound h) [r] []).getD []

lemma enqueueTargets_length (h : Heap) (i : Nat) :
    (enqueueTargets h i).length = fanoutAt h i := by
  rw [enqueueTargets, fanoutAt]
  cases hg : h.get? i with
  | none => rfl
  | some n =>
    cases n with
    | sentinelN t ps => cases ps <;> rfl
    | displayableN t ps => cases ps <;> rfl
    | attributedN a => rfl
    | carrierN cls c => simp [nodeFanout]
    | wrapN t c => rfl
    | multiN t cs => rfl
    | customN t u => cases u <;> rfl

lemma unvisitedWeight_cons_mem (h : Heap) {i : Nat} (visited : List Nat)
    (hi : i < h.length) (hnv : i ∉ visited) :
    unvisitedWeight h visited = fanoutAt h i + unvisitedWeight h (i :: visited) := by
  have hset : (Finset.range h.length).filter (fun j => j ∉ (i :: visited)) =
      ((Finset.range h.length).filter (fun j => j ∉ visited)).erase i := by
    ext j
    simp only [Finset.mem_filter, Finset.mem_erase, Finset.mem_range,
      List.mem_cons]
    constructor
    · rintro ⟨hj, hno⟩
      push_neg at hno
      exact ⟨hno.1, hj, hno.2⟩
    · rintro ⟨hne, hj, hno⟩
      exact ⟨hj, by push_neg; exact ⟨hne, hno⟩⟩
  have hmem : i ∈ (Finset.range h.length).filter (fun j => j ∉ visited) := by
    simp [Finset.mem_filter, Finset.mem_range, hi, hnv]
  rw [unvisitedWeight, unvisitedWeight, hset]
  have heq := Finset.sum_erase_add
    ((Finset.range h.length).filter (fun j => j ∉ visited))
    (fun j => fanoutAt h j) hmem
  beta_reduce at heq
  omega

lemma unvisitedWeight_cons_out (h : Heap) {i : Nat} (visited : List Nat)
    (hi : ¬ i < h.length) :
    unvisitedWeight h (i :: visited) = unvisitedWeight h visited := by
  rw [unvisitedWeight, unvisitedWeight]
  refine Finset.sum_congr ?_ (fun _ _ => rfl)
  ext j
  simp only [Finset.mem_filter, Finset.mem_range, List.mem_cons]
  constructor
  · rintro ⟨hj, hno⟩
    push_neg at hno
    exact ⟨hj, hno.2⟩
  · rintro ⟨hj, hno⟩
    refine ⟨hj, ?_⟩
    push_neg
    exact ⟨by omega, hno⟩

/-- exLoopF completes whenever the fuel covers the queue length plus the
total fanout of unvisited nodes — the loop's potential strictly decreases
every iteration, which is why the visited-set traversal terminates on every
graph, cyclic ones included. -/
lemma exLoopF_complete (h : Heap) :
    ∀ fuel queue visited found acc,
      queue.length + unvisitedWeight h visited ≤ fuel →
      (exLoopF h fuel queue visited found acc).isSome = true := by
  intro fuel
  induction fuel with
  | zero =>
    intro queue visited found acc hb
    cases queue with
    | nil => rfl
    | cons i rest => simp at hb
  | succ f ih =>
    intro queue visited found acc hb
    cases queue with
    | nil => rfl
    | cons i rest =>
      rw [exLoopF]
      by_cases hv : i ∈ visited
      · rw [if_pos hv]
        refine ih rest visited found acc ?_
        simp only [List.length_cons] at hb
        omega
      · rw [if_neg hv]
        refine ih _ _ _ _ ?_
        simp only [List.length_append, List.length_cons,
          enqueueTargets_length] at hb ⊢
        by_cases hi : i < h.length
        · have := unvisitedWeight_cons_mem h visited hi hv
          omega
        · have h1 := unvisitedWeight_cons_out h visited hi
          have h2 : fanoutAt h i = 0 := by
            rw [fanoutAt]
            have : h.get? i = none := by
              rw [List.get?_eq_none]
              omega
            rw [this]
          omega

lemma stepAcc_spec (h : Heap) (i : Nat) (found : List Nat) (acc : List Attr)
    (hnf : i ∉ found) :
    stepAcc h i found acc =
      acc ++ (if isAttributedAt h i = true then attrsAt h i else []) := by
  rw [stepAcc, isAttributedAt, attrsAt]
  cases hgy : h.get? i with
  | none => simp
  | some n => cases n <;> simp [hnf]

/-- exLoopF computes exactly what the spec's BFS predicts: with the found
set inside the visited set (true initially, and maintained), the result is
the accumulator followed by the attribute lists of the attributed nodes of
the BFS discovery order, concatenated in that order. -/
lemma exLoopF_eq_bfs (h : Heap) :
    ∀ fuel queue visited found acc, (∀ x ∈ found, x ∈ visited) →
      exLoopF h fuel queue visited found acc =
        (bfsF h fuel queue visited).map
          (fun ord =>
            acc ++ ((ord.filter (fun j => isAttributedAt h j)).map
              (fun j => attrsAt h j)).flatten) := by
  intro fuel
  induction fuel with
  | zero =>
    intro queue visited found acc hsub
    cases queue with
    | nil => simp [exLoopF, bfsF]
    | cons i rest => simp [exLoopF, bfsF]
  | succ f ih =>
    intro queue visited found acc hsub
    cases queue with
    | nil => simp [exLoopF, bfsF]
    | cons i rest =>
      rw [exLoopF, bfsF]
      by_cases hv : i ∈ visited
      · rw [if_pos hv, if_pos hv]
        exact ih rest visited found acc hsub
      · rw [if_neg hv, if_neg hv]
        have hnf : i ∉ found := fun hf => hv (hsub i hf)
        have hsub' : ∀ x ∈ stepFound h i found, x ∈ i :: visited := by
          intro x hx
          rw [stepFound] at hx
          cases hgx : h.get? i with
          | none =>
            rw [hgx] at hx
            exact List.mem_cons_of_mem i (hsub x hx)
          | some n =>
            rw [hgx] at hx
            cases n with
            | attributedN a =>
              rw [if_neg hnf] at hx
              rcases List.mem_cons.mp hx with rfl | hx'
              · exact List.mem_cons_self x visited
              · exact List.mem_cons_of_mem i (hsub x hx')
            | sentinelN t ps => exact List.mem_cons_of_mem i (hsub x hx)
            | displayableN t ps => exact List.mem_cons_of_mem i (hsub x hx)
            | carrierN cls c => exact List.mem_cons_of_mem i (hsub x hx)
            | wrapN t c => exact List.mem_cons_of_mem i (hsub x hx)
            | multiN t cs => exact List.mem_cons_of_mem i (hsub x hx)
            | customN t u => exact List.mem_cons_of_mem i (hsub x hx)
        rw [ih (rest ++ enqueueTargets h i) (i :: visited)
          (stepFound h i found) (stepAcc h i found acc) hsub']
        cases hb : bfsF h f (rest ++ enqueueTargets h i) (i :: visited) with
        | none => rfl
        | some ord =>
          show some (stepAcc h i found acc ++
              ((ord.filter (fun j => isAttributedAt h j)).map
                (fun j => attrsAt h j)).flatten)
            = some (acc ++ (((i :: ord).filter (fun j => isAttributedAt h j)).map
                (fun j => attrsAt h j)).flatten)
          refine congrArg some ?_
          rw [stepAcc_spec h i found acc hnf]
          by_cases hattr : isAttributedAt h i = true
          · simp [List.filter_cons, hattr]
          · simp [List.filter_cons, hattr]

/-- bfsF discovers each node at most once, and only nodes outside the
initial visited set. -/
lemma bfsF_nodup (h : Heap) :
    ∀ fuel queue visited ord, bfsF h fuel queue visited = some ord →
      ord.Nodup ∧ ∀ x ∈ ord, x ∉ visited := by
  intro fuel
  induction fuel with
  | zero =>
    intro queue visited ord hh
    cases queue with
    | nil =>
      rw [bfsF] at hh
      obtain rfl : ([] : List Nat) = ord := by simpa using hh
      exact ⟨List.nodup_nil, by simp⟩
    | cons i rest => exact absurd hh (by simp [bfsF])
  | succ f ih =>
    intro queue visited ord hh
    cases queue with
    | nil =>
      rw [bfsF] at hh
      obtain rfl : ([] : List Nat) = ord := by simpa using hh
      exact ⟨List.nodup_nil, by simp⟩
    | cons i rest =>
      rw [bfsF] at hh
      by_cases hv : i ∈ visited
      · rw [if_pos hv] at hh
        exact ih rest visited ord hh
      · rw [if_neg hv] at hh
        cases hb : bfsF h f (rest ++ enqueueTargets h i) (i :: visited) with
        | none => rw [hb] at hh; exact absurd hh (by simp)
        | some ord' =>
          rw [hb] at hh
          obtain rfl : i :: ord' = ord := by simpa using hh
          obtain ⟨hnd, hout⟩ := ih _ _ _ hb
          constructor
          · refine List.nodup_cons.mpr ⟨?_, hnd⟩
            intro hmem
            exact (hout i hmem) (List.mem_cons_self i visited)
          · intro x hx
            rcases List.mem_cons.mp hx with rfl | hx'
            · exact hv
            · intro hxv
              exact (hout x hx') (List.mem_cons_of_mem i hxv)

/-- C4.  ExtractAttrs returns exactly the concatenation, in breadth-first
first-discovery order, of the attribute lists of the attributed nodes the
spec's BFS discovers; the discovery order lists each instance at most once
(so an instance reached by several paths contributes once, while two
distinct instances with equal content are distinct list entries and both
contribute), and a nil input yields the empty result. -/
theorem c4_extract_attrs_bfs (h : Heap) (r : Nat) :
    extractAttrs h (some r) =
      (((bfsDiscoveryOrderOf h r).filter (fun j => isAttributedAt h j)).map
        (fun j => attrsAt h j)).flatten
    ∧ (bfsDiscoveryOrderOf h r).Nodup
    ∧ extractAttrs h none = [] := by
  have hcomp : (exLoopF h (traversalBound h) [r] [] [] []).isSome = true := by
    refine exLoopF_complete h (traversalBound h) [r] [] [] [] ?_
    rw [traversalBound]
    simp
  have heq := exLoopF_eq_bfs h (traversalBound h) [r] [] [] [] (by simp)
  cases hb : bfsF h (traversalBound h) [r] [] with
  | none =>
    rw [hb] at heq
    rw [heq] at hcomp
    exact absurd hcomp (by simp)
  | some ord =>
    rw [hb] at heq
    have hval : extractAttrs h (some r) =
        ((ord.filter (fun j => isAttributedAt h j)).map
          (fun j => attrsAt h j)).flatten := by
      rw [extractAttrs, heq]
      simp
    have hord : bfsDiscoveryOrderOf h r = ord := by
      rw [bfsDiscoveryOrderOf, hb]
      rfl
    refine ⟨by rw [hval, hord], ?_, rfl⟩
    rw [hord]
    exact (bfsF_nodup h _ _ _ _ hb).1

/-- HasAttrs, being a plain `errors.As` search, makes no progress on the
self-referential error: the search revisits the same node forever. -/
lemma hasAttrs_cyclic_diverges :
    ∀ fuel, findAs [ErrNode.customN "cyc" (some 0)] isAttrNode fuel 0 = none := by
  intro fuel
  induction fuel with
  | zero => rfl
  | succ f ih =>
    rw [findAs]
    simp only [List.get?]
    rw [if_neg (by simp [isAttrNode])]
    simp only [orElseFound, Option.elim]
    exact ih

/-- C5 (amended).  ExtractAttrs runs the visited-set traversal engine and
terminates on every error graph, cyclic graphs included (the loop completes
within `traversalBound` fuel for every heap and root); HasAttrs does not —
it is an `errors.As` search along the unwrap chain with no cycle guard, and
on the self-referential error it never terminates (its fuelled model
answers `none` at every fuel). -/
theorem c5_amended :
    (∀ (h : Heap) (r : Nat),
      (exLoopF h (traversalBound h) [r] [] [] []).isSome = true)
    ∧ (∀ fuel, HasAttrsF [ErrNode.customN "cyc" (some 0)] fuel (some 0) = none) := by
  constructor
  · intro h r
    refine exLoopF_complete h (traversalBound h) [r] [] [] [] ?_
    rw [traversalBound]
    simp
  · intro fuel
    rw [HasAttrsF, hasAttrs_cyclic_diverges fuel]
    rfl

/-- Counterexample for C5 as stated: on the one-node cyclic graph, the
HasAttrs search has not terminated after one hundred protocol steps — far
beyond the traversal engine's bound for this heap — while the ExtractAttrs
engine completes within its bound. -/
theorem c5_counterexample :
    HasAttrsF [ErrNode.customN "cyc" (some 0)] 100 (some 0) = none
    ∧ (exLoopF [ErrNode.customN "cyc" (some 0)]
        (traversalBound [ErrNode.customN "cyc" (some 0)]) [0] [] [] []).isSome
      = true := by
  constructor
  · decide
  · decide

/-- SConfig is the json package's `config`: the depth limit and the
standard-error filter.  `maxStackFrames` is not modelled because the model
holds no traced allocations (stack capture is runtime state). -/
structure SConfig where
  maxDepth : Nat
  includeStandardErrors : Bool

/-- defaultSConfig is `defaultConfig` of src/json/json.go: depth 32,
standard errors included. -/
def defaultSConfig : SConfig :=
  ⟨32, true⟩

/-- SErr is `SerializedError` of src/json/json.go: message, optional
display text, sentinel texts, attributes, single cause, multi causes.
The stack-trace field is absent for the reason given at `SConfig`. -/
inductive SErr where
  | mk (message : String) (displayText : Option String)
       (sentinels : List String) (attributes : List Attr)
       (cause : Option SErr) (causes : List SErr)

/-- terminalNode is the serializer's degenerate node carrying only a
marker message. -/
def terminalNode (msg : String) : SErr :=
  .mk msg none [] [] none []

/-- isClassifiedNode is the `err.(errx.Classified)` type assertion:
sentinels, displayables and attributed errors implement `IsClassified`;
the carrier does not (src/errx.go defines no such method on it), and the
`fmt.Errorf` wrapper, multi-errors and custom errors are plain errors. -/
def isClassifiedNode : ErrNode → Bool
  | .sentinelN _ _ => true
  | .displayableN _ _ => true
  | .attributedN _ => true
  | _ => false

/-- isErrxAt is `isErrxError` of src/json/json.go lines 443-449. -/
def isErrxAt (h : Heap) (i : Nat) : Bool :=
  match h.get? i with
  | some n => isClassifiedNode n
  | none => false

/-- isCarrierAt is `isCarrier` of src/json/json.go lines 452-467: the
reflective check for the `classifications` field matches exactly carrier
nodes. -/
def isCarrierAt (h : Heap) (i : Nat) : Bool :=
  match h.get? i with
  | some (.carrierN _ _) => true
  | _ => false

/-- carrierClsAt is `extractCarrierClassifications` of src/json/json.go:
the classification list of a carrier, empty for every other node. -/
def carrierClsAt (h : Heap) (i : Nat) : List Nat :=
  match h.get? i with
  | some (.carrierN cls _) => cls
  | _ => []

/-- isPureSentinelF is `isPureSentinel` of src/json/json.go lines 363-365:
not displayable, no attributes, no stack trace — three `errors.As`
searches with Go's short-circuit order, each able to diverge on a cyclic
chain (`none`). -/
def isPureSentinelF (h : Heap) (asFuel : Nat) (c : Nat) : Option Bool :=
  match findAs h isDispNode asFuel c with
  | none => none
  | some (some _) => some false
  | some none =>
    match findAs h isAttrNode asFuel c with
    | none => none
    | some (some _) => some false
    | some none =>
      match findAs h isTracedNode asFuel c with
      | none => none
      | some (some _) => some false
      | some none => some true

/-- addPureSentinelsF is `addPureSentinels` of src/json/json.go lines
350-360: append the text of each pure sentinel classification, de-duplicated
by text via the `seen` set (state is the pair of the output list and the
seen list). -/
def addPureSentinelsF (h : Heap) (asFuel : Nat) :
    List Nat → List String × List String → Option (List String × List String)
  | [], st => some st
  | c :: rest, st =>
    match isPureSentinelF h asFuel c with
    | none => none
    | some true =>
      if errorMsg h c ∈ st.2 then addPureSentinelsF h asFuel rest st
      else addPureSentinelsF h asFuel rest
        (st.1 ++ [errorMsg h c], errorMsg h c :: st.2)
    | some false => addPureSentinelsF h asFuel rest st

/-- carrierCauseStep is one iteration of `extractFromCarrierCauses`: stop
when the unwrap target is nil or not a carrier, otherwise collect the
carrier's pure sentinels and continue from it. -/
def carrierCauseStep (h : Heap) (asFuel : Nat) (cur : Nat)
    (st : List String × List String) :
    Option (Option Nat × (List String × List String)) :=
  match unwrapSingle h cur with
  | none => some (none, st)
  | some c =>
    if isCarrierAt h c then
      match addPureSentinelsF h asFuel (carrierClsAt h c) st with
      | none => none
      | some st' => some (some c, st')
    else some (none, st)

/-- extractFromCarrierCausesF is `extractFromCarrierCauses` of
src/json/json.go lines 368-379: the look-ahead of at most two carrier
levels, unrolled. -/
def extractFromCarrierCausesF (h : Heap) (asFuel : Nat) (i : Nat)
    (st : List String × List String) : Option (List String × List String) :=
  match carrierCauseStep h asFuel i st with
  | none => none
  | some (none, st1) => some st1
  | some (some c1, st1) =>
    match carrierCauseStep h asFuel c1 st1 with
    | none => none
    | some (_, st2) => some st2

/-- addSelfAsPureSentinelF is `addSelfAsPureSentinel` of src/json/json.go
lines 382-395: when the node itself is a Classified pure sentinel, add its
text with the same de-duplication. -/
def addSelfAsPureSentinelF (h : Heap) (asFuel : Nat) (i : Nat)
    (st : List String × List String) : Option (List String × List String) :=
  match h.get? i with
  | none => some st
  | some n =>
    if isClassifiedNode n then
      match isPureSentinelF h asFuel i with
      | none => none
      | some true =>
        if errorMsg h i ∈ st.2 then some st
        else some (st.1 ++ [errorMsg h i], errorMsg h i :: st.2)
      | some false => some st
    else some st

/-- extractSentinelsF is `extractSentinelsFromError` of src/json/json.go
lines 327-347: the node's own carrier classifications, then up to two
carrier-cause levels, then the node itself. -/
def extractSentinelsF (h : Heap) (asFuel : Nat) (i : Nat) :
    Option (List String) :=
  match addPureSentinelsF h asFuel (carrierClsAt h i) ([], []) with
  | none => none
  | some st1 =>
    match extractFromCarrierCausesF h asFuel i st1 with
    | none => none
    | some st2 =>
      match addSelfAsPureSentinelF h asFuel i st2 with
      | none => none
      | some st3 => some st3.1

/-- toSerializedErrorF is `toSerializedError` of src/json/json.go lines
188-230 with its helpers `serializeCauses`, `serializeMultiError` and
`serializeSingleCause` (lines 268-324) inlined, plus two bookkeeping
translations: the recursion depth is carried as the remaining budget
`rem = maxDepth - depth` (so Go's `depth >= cfg.maxDepth` test is
`rem = 0`; top-level calls start at `rem = maxDepth` for `depth = 0`), and
the mutated `visited` set is threaded through and returned, since Go shares
one tracker across the whole recursion, siblings included.  `asFuel` feeds
the embedded `errors.As` searches (display text, pure-sentinel checks,
stack traces), whose divergence on cyclic chains surfaces as `none`. -/
def toSerializedErrorF (h : Heap) (cfg : SConfig) (asFuel : Nat)
    (rem : Nat) (e : Option Nat) (vis : List Nat) :
    Option (Option SErr × List Nat) :=
  match e with
  | none => some (none, vis)
  | some i =>
    match rem with
    | 0 => some (some (terminalNode "(max depth reached)"), vis)
    | rem' + 1 =>
      if i ∈ vis then some (some (terminalNode "(circular reference)"), vis)
      else
        match findAs h isDispNode asFuel i with
        | none => none
        | some dres =>
          match extractSentinelsF h asFuel i with
          | none => none
          | some sents =>
            match findAs h isTracedNode asFuel i with
            | none => none
            | some _ =>
              let vis1 := i :: vis
              let msg := errorMsg h i
              let dt : Option String := dres.map (fun d => errorMsg h d)
              let attrs := extractAttrs h (some i)
              match h.get? i with
              | some (.multiN _ cs) =>
                match cs.foldl (fun st c =>
                    match st with
                    | none => none
                    | some (ss, v) =>
                      if cfg.includeStandardErrors || isErrxAt h c then
                        match toSerializedErrorF h cfg asFuel rem' (some c) v with
                        | none => none
                        | some (sc, v') =>
                            some (sc.elim ss (fun s => ss ++ [s]), v')
                      else some (ss, v)) (some ([], vis1)) with
                | none => none
                | some (ss, vis2) =>
                    some (some (.mk msg dt sents attrs none ss), vis2)
              | _ =>
                match unwrapSingle h i with
                | none => some (some (.mk msg dt sents attrs none []), vis1)
                | some c =>
                  if isCarrierAt h c then
                    match unwrapSingle h c with
                    | none => some (some (.mk msg dt sents attrs none []), vis1)
                    | some inner =>
                      if cfg.includeStandardErrors || isErrxAt h inner then
                        match toSerializedErrorF h cfg asFuel rem' (some inner) vis1 with
                        | none => none
                        | some (sc, vis2) =>
                            some (some (.mk msg dt sents attrs sc []), vis2)
                      else some (some (.mk msg dt sents attrs none []), vis1)
                  else
                    if cfg.includeStandardErrors || isErrxAt h c then
                      match toSerializedErrorF h cfg asFuel rem' (some c) vis1 with
                      | none => none
                      | some (sc, vis2) =>
                          some (some (.mk msg dt sents attrs sc []), vis2)
                    else some (some (.mk msg dt sents attrs none []), vis1)

/-- ToSerializedErrorTop is `ToSerializedError` (and the struct built by
`Marshal`): nil input yields an absent result, otherwise the recursion
starts at depth 0 — budget `cfg.maxDepth` — with a fresh visited set. -/
def ToSerializedErrorTop (h : Heap) (cfg : SConfig) (asFuel : Nat)
    (e : Option Nat) : Option (Option SErr) :=
  match e with
  | none => some none
  | some i =>
    (toSerializedErrorF h cfg asFuel cfg.maxDepth (some i) []).map
      (fun x => x.1)

/-- findAs makes no progress on the self-referential error whose node the
target test rejects: every protocol step unwraps back to the same node. -/
lemma findAs_selfloop_diverges (tx : String) (isT : ErrNode → Bool)
    (hT : isT (ErrNode.customN tx (some 0)) = false) :
    ∀ fuel, findAs [ErrNode.customN tx (some 0)] isT fuel 0 = none := by
  intro fuel
  induction fuel with
  | zero => rfl
  | succ f ih =>
    rw [findAs]
    simp only [List.get?]
    rw [if_neg (by simp [hT])]
    simp only [orElseFound, Option.elim]
    exact ih

/-- C7 (code bug).  Serializing the self-referential plain error — one
custom node whose unwrap target is itself — never terminates, for any
behaviour of the embedded `errors.As` searches (any fuel) and any positive
depth limit including the default 32: before its own cycle guard can fire
on the recurrence, `toSerializedError` calls `errx.IsDisplayable`, whose
`errors.As` walk has no cycle protection and loops forever, so the
`"(circular reference)"` terminal node the claim (and the package's own
circular-reference-detection documentation) promises is never produced. -/
theorem c7_serializer_self_loop_diverges :
    ∀ (asFuel m : Nat) (inclStd : Bool),
      ToSerializedErrorTop [ErrNode.customN "cyc" (some 0)]
        ⟨m + 1, inclStd⟩ asFuel (some 0) = none
    ∧ ToSerializedErrorTop [ErrNode.customN "cyc" (some 0)]
        defaultSConfig asFuel (some 0) = none := by
  have main : ∀ (asFuel m : Nat) (inclStd : Bool),
      ToSerializedErrorTop [ErrNode.customN "cyc" (some 0)]
        ⟨m + 1, inclStd⟩ asFuel (some 0) = none := by
    intro asFuel m inclStd
    have hd := findAs_selfloop_diverges "cyc" isDispNode rfl asFuel
    show (toSerializedErrorF [ErrNode.customN "cyc" (some 0)]
        ⟨m + 1, inclStd⟩ asFuel (m + 1) (some 0) []).map (fun x => x.1) = none
    simp [toSerializedErrorF, hd]
  exact fun asFuel m inclStd =>
    ⟨main asFuel m inclStd, main asFuel 31 true⟩

/-- chainHeap is the five-level linear wrap chain
`l4: l3: l2: l1: base` used by the depth-limit scenario. -/
def chainHeap : Heap :=
  [ErrNode.customN "base" none, ErrNode.wrapN "l1" 0, ErrNode.wrapN "l2" 1,
   ErrNode.wrapN "l3" 2, ErrNode.wrapN "l4" 3]

/-- C8.  A node reached with no remaining depth budget (recursion depth
equal to `maxDepth`) is rendered as the `"(max depth reached)"` terminal
node with no further descent, whatever the node, heap, configuration and
visited state; and serializing the five-level linear wrap chain with
`maxDepth = 3` yields exactly three levels of cause nesting, the innermost
node being the `"(max depth reached)"` terminal. -/
theorem c8_max_depth :
    (∀ (h : Heap) (cfg : SConfig) (asFuel i : Nat) (vis : List Nat),
      toSerializedErrorF h cfg asFuel 0 (some i) vis =
        some (some (terminalNode "(max depth reached)"), vis))
    ∧ ToSerializedErrorTop chainHeap ⟨3, true⟩ 12 (some 4) =
        some (some (SErr.mk "l4: l3: l2: l1: base" none [] []
          (some (SErr.mk "l3: l2: l1: base" none [] []
            (some (SErr.mk "l2: l1: base" none [] []
              (some (terminalNode "(max depth reached)")) [])) [])) [])) :=
  ⟨fun _ _ _ _ _ => rfl, rfl⟩

/-- parseAttrsClaim is the claim's reading of the `Attrs` argument rules as
a structural recursion over the argument list: an `Attr` is kept as is, an
`[]Attr` or `AttrList` has its elements appended, a string that is not the
last argument keys the immediately following argument, and every other
argument — a final string included — becomes a `!BADKEY` attribute; output
order follows argument order. -/
def parseAttrsClaim : List GoVal → List Attr
  | [] => []
  | .attrV k v :: rest => (k, v) :: parseAttrsClaim rest
  | .attrSliceV xs :: rest => xs ++ parseAttrsClaim rest
  | .attrListV xs :: rest => xs ++ parseAttrsClaim rest
  | [.str s] => [("!BADKEY", .str s)]
  | .str s :: v :: rest => (s, v) :: parseAttrsClaim rest
  | v :: rest => ("!BADKEY", v) :: parseAttrsClaim rest

lemma parseLoop_eq_claim (attrs : List GoVal) :
    ∀ k i, attrs.length - i ≤ k →
      parseLoop attrs i = parseAttrsClaim (attrs.drop i) := by
  intro k
  induction k with
  | zero =>
    intro i hk
    have hlen : attrs.length ≤ i := by omega
    have hg : attrs.get? i = none := by
      rw [List.get?_eq_none]
      exact hlen
    have hdrop : attrs.drop i = [] := List.drop_eq_nil_of_le hlen
    rw [parseLoop.eq_def, hg, hdrop]
    rfl
  | succ k ih =>
    intro i hk
    cases hg : attrs.get? i with
    | none =>
      have hlen : attrs.length ≤ i := List.get?_eq_none.mp hg
      have hdrop : attrs.drop i = [] := List.drop_eq_nil_of_le hlen
      rw [parseLoop.eq_def, hg, hdrop]
      rfl
    | some a =>
      have hlt : i < attrs.length := (List.get?_eq_some.mp hg).1
      have hget : attrs[i] = a := by
        have := (List.get?_eq_some.mp hg).2
        simpa using this
      have hdrop : attrs.drop i = a :: attrs.drop (i + 1) := by
        rw [List.drop_eq_getElem_cons hlt, hget]
      have ih1 : parseLoop attrs (i + 1) = parseAttrsClaim (attrs.drop (i + 1)) :=
        ih (i + 1) (by omega)
      cases a with
      | attrV key v =>
        rw [parseLoop.eq_def, hg, hdrop, ih1]
        rfl
      | attrSliceV xs =>
        rw [parseLoop.eq_def, hg, hdrop, ih1]
        rfl
      | attrListV xs =>
        rw [parseLoop.eq_def, hg, hdrop, ih1]
        rfl
      | intV n =>
        rw [parseLoop.eq_def, hg, hdrop, ih1]
        rfl
      | boolV b =>
        rw [parseLoop.eq_def, hg, hdrop, ih1]
        rfl
      | otherV t =>
        rw [parseLoop.eq_def, hg, hdrop, ih1]
        rfl
      | str s =>
        cases hg2 : attrs.get? (i + 1) with
        | none =>
          have hlen2 : attrs.length ≤ i + 1 := List.get?_eq_none.mp hg2
          have hdrop2 : attrs.drop (i + 1) = [] := List.drop_eq_nil_of_le hlen2
          rw [parseLoop.eq_def, hg, hg2, hdrop, hdrop2]
          rw [ih1, hdrop2]
          rfl
        | some v =>
          have hlt2 : i + 1 < attrs.length := (List.get?_eq_some.mp hg2).1
          have hget2 : attrs[i + 1] = v := by
            have := (List.get?_eq_some.mp hg2).2
            simpa using this
          have hdrop2 : attrs.drop (i + 1) = v :: attrs.drop (i + 2) := by
            rw [List.drop_eq_getElem_cons hlt2, hget2]
          have ih2 : parseLoop attrs (i + 2) =
              parseAttrsClaim (attrs.drop (i + 2)) :=
            ih (i + 2) (by omega)
          rw [parseLoop.eq_def, hg, hg2, hdrop, hdrop2, ih2]
          rfl

/-- C10.  The indexed argument loop of `parseAttrs` (and hence the payload
of `Attrs`) computes exactly the claim's case analysis: `Attr` arguments
kept as is, `[]Attr`/`AttrList` arguments appended elementwise, a
non-final string keying the immediately following argument (which is
consumed), and everything else — a final string included — becoming a
`!BADKEY` attribute, in argument order. -/
theorem c10_parse_attrs : ∀ args : List GoVal,
    parseAttrs args = parseAttrsClaim args := by
  intro args
  rw [parseAttrs]
  by_cases hemp : args.isEmpty
  · rw [if_pos hemp]
    rw [List.isEmpty_iff.mp hemp]
    rfl
  · rw [if_neg hemp]
    have := parseLoop_eq_claim args args.length 0 (by omega)
    simpa using this

end Errx
